import Mathlib

/-!
Verification development for `src/appdirtool/appdirtool.go` of go-appimage.

The Go sources are shallowly embedded: the mutable globals `allLibs` and
`libraryLocations` become an explicit state record that is threaded through
the functions, the host filesystem and the outputs of the external
`patchelf` tool become an explicit read-only environment, and the
recursion of `getDeps` is driven by a fuel parameter (with a theorem that
enough fuel is never exhausted).  Go's `path/filepath` lexical operations
are re-implemented over character lists.
-/

namespace AppDirTool

/-! ## Character-list path primitives (models of Go `path/filepath` and `strings`) -/

/-- Split a character list at every occurrence of `sep`, keeping empty
segments, as Go `strings.Split` does for a one-character separator.
`acc` holds the (reversed) current segment. -/
def splitCharAux (sep : Char) : List Char → List Char → List (List Char)
  | [], acc => [acc.reverse]
  | c :: rest, acc =>
    if c = sep then acc.reverse :: splitCharAux sep rest []
    else splitCharAux sep rest (c :: acc)

/-- The path segments of a character list: split at `/`, dropping empty
segments and `"."` segments (the first normalization steps of
Go `filepath.Clean`). -/
def segsOf (l : List Char) : List String :=
  ((splitCharAux '/' l []).map String.mk).filter (fun s => decide (s ≠ "" ∧ s ≠ "."))

/-- Whether a character list denotes an absolute path (leading `/`). -/
def isAbsChars : List Char → Bool
  | [] => false
  | c :: _ => c == '/'

/-- Resolve `".."` segments as Go `filepath.Clean` does: a `".."` pops the
previous segment; at the root of an absolute path it is dropped; in a
relative path leading `".."`s are kept. -/
def cleanSegsAux (abs : Bool) : List String → List String → List String
  | [], acc => acc.reverse
  | s :: rest, acc =>
    if s = ".." then
      match acc with
      | [] =>
        if abs then cleanSegsAux abs rest [] else cleanSegsAux abs rest [".."]
      | a :: acc2 =>
        if a = ".." then cleanSegsAux abs rest (s :: a :: acc2)
        else cleanSegsAux abs rest acc2
    else cleanSegsAux abs rest (s :: acc)

/-- Render a cleaned segment list back to a string; the empty relative
path renders as `"."`, the empty absolute path as `"/"`, exactly as
Go `filepath.Clean` outputs. -/
def renderPath (abs : Bool) (segs : List String) : String :=
  if abs then "/" ++ String.intercalate "/" segs
  else if segs = [] then "." else String.intercalate "/" segs

/-- Go `filepath.Clean` on a character list. -/
def cleanChars (l : List Char) : String :=
  renderPath (isAbsChars l) (cleanSegsAux (isAbsChars l) (segsOf l) [])

/-- Go `filepath.Clean`. -/
def pathClean (p : String) : String :=
  cleanChars p.toList

/-- The characters of a path up to and including its last `/`
(the `dir` part of Go `filepath.Split`). -/
def preSlash (l : List Char) : List Char :=
  (l.reverse.dropWhile (fun c => c != '/')).reverse

/-- Go `filepath.Dir` on a character list: everything up to the final
separator, cleaned; `"."` when there is no separator. -/
def dirChars (l : List Char) : String :=
  if preSlash l = [] then "." else cleanChars (preSlash l)

/-- Go `filepath.Dir`. -/
def pathDir (p : String) : String :=
  dirChars p.toList

/-- Go `strings.HasPrefix` (and `String.startsWith`), via character
lists: for UTF-8 strings a byte prefix is exactly a character prefix. -/
def strHasPrefix (s pre : String) : Bool :=
  pre.toList.isPrefixOf s.toList

/-- Drop the longest common segment run of two segment lists
(used by the model of Go `filepath.Rel`). -/
def dropCommon : List String → List String → (List String × List String)
  | a :: as, b :: bs => if a = b then dropCommon as bs else (a :: as, b :: bs)
  | as, bs => (as, bs)

/-- Go `filepath.Rel base targ`: both paths are cleaned; the result is the
lexical relative path from `base` to `targ` (`".."` steps up for each
remaining base segment), `none` when the target cannot be made relative
(mixed absolute/relative arguments, or a `".."` remaining in the base). -/
def pathRel (base targ : String) : Option String :=
  let b := pathClean base
  let t := pathClean targ
  if b = t then some "."
  else if strHasPrefix b "/" = strHasPrefix t "/" then
    let p := dropCommon (segsOf b.toList) (segsOf t.toList)
    if p.1.head? = some ".." then none
    else some (renderPath false (List.replicate p.1.length ".." ++ p.2))
  else none

/-- Fuelled model of Go `strings.Replace` with count `-1` for a non-empty
pattern: replace every non-overlapping occurrence of `pat`, scanning left
to right.  The fuel is instantiated with the input length, which is always
sufficient since every step consumes at least one character. -/
def replaceCharsF (pat rep : List Char) : Nat → List Char → List Char
  | _, [] => []
  | 0, l => l
  | n + 1, c :: cs =>
    if pat ≠ [] ∧ pat.isPrefixOf (c :: cs) then
      rep ++ replaceCharsF pat rep n (List.drop (pat.length - 1) cs)
    else c :: replaceCharsF pat rep n cs

/-- Go `strings.Replace s pat rep -1` (for the non-empty pattern
`"$ORIGIN"`, the only pattern the source uses). -/
def replaceStr (s pat rep : String) : String :=
  String.mk (replaceCharsF pat.toList rep.toList s.toList.length s.toList)

/-- Whether a character is ASCII whitespace (model of the character class
used by Go `strings.TrimSpace` on the paths that occur here). -/
def isSpaceChar (c : Char) : Bool :=
  c == ' ' || c == '\t' || c == '\n' || c == '\r'

/-- Go `strings.TrimSpace`. -/
def trimSpace (s : String) : String :=
  String.mk (((s.toList.dropWhile isSpaceChar).reverse.dropWhile isSpaceChar).reverse)

/-! ## Modelled helper functions

The `helpers` package of the repository is not part of the sources under
verification, so its two list utilities are modelled from the spec. -/

/-- Modelled from the spec: `helpers.AppendIfMissing` "appends a directory
to SearchDirectorySet if not already present (idempotent)" (spec §4.2);
the same helper maintains `allLibs`. -/
def appendIfMissing (xs : List String) (x : String) : List String :=
  if x ∈ xs then xs else xs ++ [x]

/-! ## The filesystem / external-tool environment and the global state

`FS` packages everything the resolver reads from outside: which host paths
exist (`files`), which of them parse as ELF (`isELF`, the outcome of
`elf.Open`), the `DT_NEEDED` entries `elf.File.ImportedLibraries` returns
(`deps`), and the pre-existing rpath entries that `readRpaths` obtains
from `patchelf --print-rpath` (`rpaths`, already split at `:`; the empty
list models an empty rpath string). -/

structure FS where
  files : List String
  isELF : String → Bool
  deps : String → List String
  rpaths : String → List String

/-- Modelled from the spec: `helpers.Exists` — whether a host path exists. -/
def fsExists (fs : FS) (p : String) : Bool :=
  decide (p ∈ fs.files)

/-- The two mutable globals of `appdirtool.go` (lines 20–21): `allLibs`
(the dependency-closure set) and `libraryLocations` (the search-directory
list). -/
structure St where
  allLibs : List String
  libraryLocations : List String
deriving DecidableEq

/-! ## Library resolution (`findLibrary`, lines 719–758) -/

/-- The hardcoded conventional system library locations of `findLibrary`
(lines 723–732), in source order. -/
def sysLocs : List String :=
  ["/usr/lib64", "/lib64", "/usr/lib", "/lib",
   "/usr/lib/x86_64-linux-gnu/libfakeroot",
   "/usr/local/lib",
   "/usr/local/lib/x86_64-linux-gnu",
   "/lib/x86_64-linux-gnu",
   "/usr/lib/x86_64-linux-gnu",
   "/lib32",
   "/usr/lib32"]

/-- The directories contributed by `LD_LIBRARY_PATH` (lines 739–745):
split at `:`, with empty entries dropped. -/
def envDirs (env : String) : List String :=
  ((splitCharAux ':' env.toList []).map String.mk).filter (fun s => decide (s ≠ ""))

/-- One `AppendIfMissing(ls, filepath.Clean(d))` loop of `findLibrary`. -/
def appendAllClean : List String → List String → List String
  | ys, [] => ys
  | ys, d :: ds => appendAllClean (appendIfMissing ys (pathClean d)) ds

/-- The final loop of `findLibrary` (lines 752–756): scan the live
search-directory list front to back and return the first directory that
contains a file of the requested name. -/
def firstHit (fs : FS) (filename : String) : List String → Option String
  | [] => none
  | d :: ds =>
    if fsExists fs (d ++ "/" ++ filename) then some (d ++ "/" ++ filename)
    else firstHit fs filename ds

/-- `findLibrary` (lines 719–758): append the hardcoded system locations,
then the `LD_LIBRARY_PATH` entries, each through `AppendIfMissing` with
`filepath.Clean`, then scan the resulting `libraryLocations` front to
back; `none` models the `"did not find library"` error. -/
def findLibrary (fs : FS) (env : String) (st : St) (filename : String) :
    St × Option String :=
  let locs := appendAllClean (appendAllClean st.libraryLocations sysLocs) (envDirs env)
  ({ st with libraryLocations := locs }, firstHit fs filename locs)

/-! ## Registration (`appendLib`, lines 500–523) -/

/-- The pre-existing-rpath loop of `appendLib` (lines 512–518): each rpath
entry has `$ORIGIN` expanded to the binary's directory, is cleaned, and is
appended to `libraryLocations` unless already present or empty. -/
def addRpathLocs (origin : String) : List String → List String → List String
  | [], ls => ls
  | rp :: rest, ls =>
    let rp2 := pathClean (replaceStr rp "$ORIGIN" origin)
    if rp2 ∈ ls ∨ rp2 = "" then addRpathLocs origin rest ls
    else addRpathLocs origin rest (appendIfMissing ls (pathClean rp2))

/-- `appendLib` (lines 500–523): register a library path — add its
pre-existing rpath directories and its containing directory to
`libraryLocations`, and the path itself to `allLibs`, all through
`AppendIfMissing`.  (`readRpaths` is assumed to succeed; its failure path
calls `os.Exit` and is outside this model.) -/
def appendLib (fs : FS) (path : String) (st : St) : St :=
  let ls1 := addRpathLocs (pathDir path) (fs.rpaths path) st.libraryLocations
  let ls2 := appendIfMissing ls1 (pathClean (pathDir path))
  { allLibs := appendIfMissing st.allLibs path, libraryLocations := ls2 }

/-! ## The dependency closure (`getDeps`, lines 672–705)

`getDeps` returns either normally (`ok`), with a Go error (`errRet`, the
`return err` for an unresolvable direct dependency or a nonexistent
binary), or by crashing the whole process (`crash`): when `elf.Open`
fails, the source logs the error with `helpers.PrintError` and then calls
`e.ImportedLibraries()` on the returned `nil` handle, a nil-pointer
dereference that panics.  `helpers.PrintError` itself only logs a non-nil
error and returns (modelled from the spec's "it is logged"; the source's
own pattern `PrintError(...); os.Exit(1)` at lines 507–509 shows that
`PrintError` does not exit).  `none` is fuel exhaustion of the model, an
outcome proved unreachable below. -/

inductive DepResult where
  | ok : St → DepResult
  | errRet : St → DepResult
  | crash : DepResult
deriving DecidableEq

/-- The `for _, lib := range libs` loop of `getDeps` (lines 689–703),
with the recursive `getDeps` call abstracted as `rec`:
resolve the name (a failure is returned immediately, aborting the loop);
skip it if the resolved path is already in `allLibs`; otherwise resolve
again, register with `appendLib`, and recurse — the error of the
recursive call is only logged (`PrintError`) and the loop continues. -/
def getDepsLoop (fs : FS) (env : String) (rec : St → String → Option DepResult) :
    List String → St → Option DepResult
  | [], st => some (.ok st)
  | l :: ls, st =>
    match (findLibrary fs env st l).2 with
    | none => some (.errRet (findLibrary fs env st l).1)
    | some s =>
      if s ∈ ((findLibrary fs env st l).1).allLibs then
        getDepsLoop fs env rec ls (findLibrary fs env st l).1
      else
        match rec (appendLib fs ((findLibrary fs env (findLibrary fs env st l).1 l).2.getD "")
                     (findLibrary fs env (findLibrary fs env st l).1 l).1)
                  ((findLibrary fs env (findLibrary fs env st l).1 l).2.getD "") with
        | none => none
        | some .crash => some .crash
        | some (.ok st4) => getDepsLoop fs env rec ls st4
        | some (.errRet st4) => getDepsLoop fs env rec ls st4

/-- `getDeps` (lines 672–705), with fuel driving the recursion: a
nonexistent path returns an error; a path that `elf.Open` cannot parse
crashes the process (see `DepResult`); otherwise the imported libraries
are processed by `getDepsLoop`. -/
def getDeps (fs : FS) (env : String) : Nat → St → String → Option DepResult
  | 0, _, _ => none
  | fuel + 1, st, p =>
    if fsExists fs p = false then some (.errRet st)
    else if fs.isELF p = false then some .crash
    else getDepsLoop fs env (getDeps fs env fuel) (fs.deps p) st

/-- Outcome of a whole `determineLibsInDirTree` run: normal completion
with the final globals, or a process crash. -/
inductive RunOut where
  | ok : St → RunOut
  | crash : RunOut
deriving DecidableEq

/-- The `getDeps` loop of `determineLibsInDirTree` (lines 543–549): each
enumerated file is processed in turn, and a `getDeps` error is only
logged (`helpers.PrintError("getDeps", err)`) before moving on. -/
def runGetDeps (fs : FS) (env : String) (fuel : Nat) :
    List String → St → Option RunOut
  | [], st => some (.ok st)
  | r :: rs, st =>
    match getDeps fs env fuel st r with
    | none => none
    | some .crash => some .crash
    | some (.ok st2) => runGetDeps fs env fuel rs st2
    | some (.errRet st2) => runGetDeps fs env fuel rs st2

/-- `determineLibsInDirTree` (lines 525–607) on an already-enumerated
list of candidate files (`findAllExecutablesAndLibraries` walks the real
filesystem; its result is the `roots` parameter here): first every root
is registered with `appendLib` (lines 538–540), then `getDeps` runs on
each (lines 543–549). -/
def determineLibsInDirTree (fs : FS) (env : String) (fuel : Nat)
    (roots : List String) (st : St) : Option RunOut :=
  runGetDeps fs env fuel roots (roots.foldl (fun s r => appendLib fs r s) st)

/-! ## Materialization (`main`, lines 371–447) -/

/-- Lines 371–377: map each search directory into its in-bundle location —
prefix the AppDir path unless the directory is already under it. -/
def libraryLocationsInAppDir (appdirPath : String) (locs : List String) :
    List String :=
  locs.map (fun lib => if strHasPrefix lib appdirPath then lib else appdirPath ++ lib)

/-- Lines 406–417: the rpath string written into a newly copied ELF — for
every in-bundle search directory, the path relative to
`filepath.Dir(appdir.Path + lib)` expressed as `$ORIGIN/<relative-path>`,
all joined with `:`.  (On a `filepath.Rel` error the source only logs and
uses the empty string, which `filepath.Clean` turns into `"."`.) -/
def newRpathStringForElf (appdirPath : String) (liblocsInAppDir : List String)
    (lib : String) : String :=
  String.intercalate ":"
    (liblocsInAppDir.map (fun libloc =>
      "$ORIGIN/" ++ pathClean ((pathRel (pathDir (appdirPath ++ lib)) libloc).getD "")))

/-- One iteration of the copy-and-patch loop (lines 397–447) that actually
copies: source and destination of the copy, whether the pre-existing rpath
of the host binary began with `$` (the condition of the log-only `if` at
line 430), and the `patchelf --set-rpath` invocation (target and rpath)
that follows unconditionally at lines 435–442. -/
structure MatStep where
  src : String
  dst : String
  hadDollarRpath : Bool
  patchTarget : String
  newRpath : String
deriving DecidableEq

/-- The copy-and-patch loop over `allLibs` (lines 397–447): a library is
processed only when it is not already under the AppDir path and its
mirrored destination does not already exist; it is then copied to
`appdir.Path + "/" + lib` and `patchelf --set-rpath` is run on
`appdir.Path + lib`.  (Copy and patchelf failures call `os.Exit` and are
outside this model.) -/
def materializeLibs (fs : FS) (appdirPath : String) (llocs : List String) :
    List String → List MatStep
  | [] => []
  | lib :: rest =>
    if strHasPrefix lib appdirPath = false ∧ fsExists fs (appdirPath ++ "/" ++ lib) = false then
      { src := lib
        dst := appdirPath ++ "/" ++ lib
        hadDollarRpath :=
          match fs.rpaths lib with
          | r :: _ => strHasPrefix r "$"
          | [] => false
        patchTarget := appdirPath ++ lib
        newRpath := newRpathStringForElf appdirPath llocs lib } ::
        materializeLibs fs appdirPath llocs rest
    else materializeLibs fs appdirPath llocs rest

/-! ## Specification-side definitions

These two definitions follow the spec's words (not the source) and exist
only to be compared with the source-derived definitions above. -/

/-- Resolution order as the spec states it (§4.2): "(1) directories
contributed by existingSearchHints of binaries already inspected this run
..., (2) directories from an environment-style library path list, (3) a
fixed, ordered list of conventional system library locations", front to
back, first match wins. -/
def specResolve (fs : FS) (env : String) (hintDirs : List String)
    (filename : String) : Option String :=
  firstHit fs filename (hintDirs ++ envDirs env ++ sysLocs)

/-- RpathSpec as the spec states it (§4.4): "for every directory in
SearchDirectorySet (mapped into its corresponding in-bundle location),
compute the path of that directory relative to the binary's own directory,
and express it using ... `$ORIGIN/<relative-path>`, joined into a single
ordered, colon-...-separated search path string" — where the binary's own
bundled location is `bundleRoot + originalAbsolutePath`. -/
def rpathSpecOfSpec (bundleRoot : String) (searchDirs : List String)
    (binPath : String) : String :=
  String.intercalate ":"
    (searchDirs.map (fun d =>
      let inBundle := if strHasPrefix d bundleRoot then d else bundleRoot ++ d
      "$ORIGIN/" ++
        pathClean ((pathRel (pathDir (bundleRoot ++ "/" ++ binPath)) inBundle).getD "")))

/-! ## `PatchFile` (lines 766–788)

The filesystem is modelled as a map from paths to file data; `writeOk`
and `renameOk` inject failures of `ioutil.WriteFile` and `os.Rename`
(`junk` is whatever partial content a failed write left at the temporary
path), and `readOk` a failure of `ioutil.ReadFile` after a successful
`os.Stat`. -/

structure FileData where
  content : String
  perm : Nat
deriving DecidableEq

/-- A file-system state for `PatchFile`. -/
def FSt : Type := String → Option FileData

/-- Create or overwrite one file. -/
def writeF (fs : FSt) (p : String) (d : FileData) : FSt :=
  fun q => if q = p then some d else fs q

/-- Go `os.Rename src dst`: `dst` receives `src`'s data and `src`
disappears (a no-op when `src` does not exist). -/
def renameF (fs : FSt) (src dst : String) : FSt :=
  match fs src with
  | none => fs
  | some d => fun q => if q = dst then some d else if q = src then none else fs q

/-- The Go error value `PatchFile` returns: `nil` (`okRet`) or the error
of the failing step. -/
inductive PatchOutcome where
  | okRet
  | statErr
  | readErr
  | writeErr
deriving DecidableEq

/-- `PatchFile` (lines 766–788): trim the path, stat it, read it, replace
every occurrence of `search` by `repl`, write the result to the sibling
`path + ".patched"` with the stat'ed permission bits, then rename the
sibling over the original — the `os.Rename` return value is discarded and
`nil` is returned. -/
def PatchFile (fs : FSt) (readOk writeOk renameOk : Bool) (junk : String)
    (path search repl : String) : FSt × PatchOutcome :=
  let p := trimSpace path
  match fs p with
  | none => (fs, .statErr)
  | some fd =>
    if readOk = false then (fs, .readErr)
    else if writeOk = false then
      (writeF fs (p ++ ".patched") ⟨junk, fd.perm⟩, .writeErr)
    else
      let fs1 := writeF fs (p ++ ".patched") ⟨replaceStr fd.content search repl, fd.perm⟩
      (if renameOk then renameF fs1 (p ++ ".patched") p else fs1, .okRet)

/-! ## Concrete instances used by the claim theorems -/

/-- A synthetic dependency cycle: `libA` needs `libB` and `libB` needs
`libA`, both living in `/lib64`. -/
def fsAB : FS :=
  { files := ["/lib64/libA.so", "/lib64/libB.so"]
    isELF := fun _ => true
    deps := fun p =>
      if p = "/lib64/libA.so" then ["libB.so"]
      else if p = "/lib64/libB.so" then ["libA.so"] else []
    rpaths := fun _ => [] }

/-- The final search-directory list of the cycle run: the root's directory
followed by the remaining default system locations. -/
def locsAB : List String :=
  ["/lib64", "/usr/lib64", "/usr/lib", "/lib", "/usr/lib/x86_64-linux-gnu/libfakeroot",
   "/usr/local/lib", "/usr/local/lib/x86_64-linux-gnu", "/lib/x86_64-linux-gnu",
   "/usr/lib/x86_64-linux-gnu", "/lib32", "/usr/lib32"]

/-- A same-named library present both in an `LD_LIBRARY_PATH` directory
and in a default system directory, with no hint directories. -/
def fsPrec : FS :=
  { files := ["/usr/lib64/libx.so", "/envdir/libx.so"]
    isELF := fun _ => true
    deps := fun _ => []
    rpaths := fun _ => [] }

/-- A same-named library present both in a registered hint directory and
in a default system directory. -/
def fsHint : FS :=
  { files := ["/hint/libx.so", "/usr/lib64/libx.so"]
    isELF := fun _ => true
    deps := fun _ => []
    rpaths := fun _ => [] }

/-- Two root files in `/r`: `x` declares an unresolvable library,
`y` declares one that resolves to `/lib64/liby.so`. -/
def fsSwallow : FS :=
  { files := ["/r/x", "/r/y", "/lib64/liby.so"]
    isELF := fun _ => true
    deps := fun p =>
      if p = "/r/x" then ["libmiss.so"]
      else if p = "/r/y" then ["liby.so"] else []
    rpaths := fun _ => [] }

/-- The root directory `/r` followed by the default system locations —
the final search-directory list of the `fsSwallow` and `fsDeep` runs. -/
def locsR : List String :=
  ["/r", "/usr/lib64", "/lib64", "/usr/lib", "/lib", "/usr/lib/x86_64-linux-gnu/libfakeroot",
   "/usr/local/lib", "/usr/local/lib/x86_64-linux-gnu", "/lib/x86_64-linux-gnu",
   "/usr/lib/x86_64-linux-gnu", "/lib32", "/usr/lib32"]

/-- A root whose (resolvable) dependency `libB` itself declares an
unresolvable library. -/
def fsDeep : FS :=
  { files := ["/r/app", "/lib64/libB.so"]
    isELF := fun _ => true
    deps := fun p =>
      if p = "/r/app" then ["libB.so"]
      else if p = "/lib64/libB.so" then ["libmiss.so"] else []
    rpaths := fun _ => [] }

/-- Two candidate files: `/a/pp` is a valid ELF, `/a/fake.so` exists but
does not parse as ELF (a file matched by the `.so` name heuristic). -/
def fsBadElf : FS :=
  { files := ["/a/pp", "/a/fake.so"]
    isELF := fun p => decide (p = "/a/pp")
    deps := fun _ => []
    rpaths := fun _ => [] }

/-- A host library whose pre-existing rpath already starts with `$`. -/
def fsDollar : FS :=
  { files := ["/usr/lib/libq.so"]
    isELF := fun _ => true
    deps := fun _ => []
    rpaths := fun p => if p = "/usr/lib/libq.so" then ["$ORIGIN/../lib"] else [] }

/-- A host library that is not under the AppDir but whose mirrored
destination inside the AppDir already exists. -/
def fsDest : FS :=
  { files := ["/usr/lib/libz.so", "/ap//usr/lib/libz.so"]
    isELF := fun _ => true
    deps := fun _ => []
    rpaths := fun _ => [] }

/-- A single file at `/f` for the `PatchFile` claims. -/
def fsPatch : FSt :=
  fun q => if q = "/f" then some ⟨"abc/usr", 493⟩ else none

/-- The `allLibs` component of a run outcome (empty for a crash). -/
def runAllLibs : Option RunOut → List String
  | some (.ok st) => st.allLibs
  | _ => []

/-! ## Lemmas about the registration helpers -/

theorem appendIfMissing_cases (xs : List String) (x : String) :
    appendIfMissing xs x = xs ∨ appendIfMissing xs x = xs ++ [x] := by
  unfold appendIfMissing
  split
  · exact Or.inl rfl
  · exact Or.inr rfl

theorem appendIfMissing_grows (xs : List String) (x : String) :
    ∃ t, appendIfMissing xs x = xs ++ t := by
  rcases appendIfMissing_cases xs x with h | h
  · exact ⟨[], by simpa using h⟩
  · exact ⟨[x], h⟩

theorem mem_appendIfMissing_self (xs : List String) (x : String) :
    x ∈ appendIfMissing xs x := by
  unfold appendIfMissing
  split
  · assumption
  · simp

theorem mem_appendIfMissing_of_mem {y : String} (xs : List String) (x : String)
    (h : y ∈ xs) : y ∈ appendIfMissing xs x := by
  unfold appendIfMissing
  split
  · exact h
  · simp [h]

theorem appendIfMissing_of_mem {xs : List String} {x : String} (h : x ∈ xs) :
    appendIfMissing xs x = xs := by
  simp [appendIfMissing, h]

theorem nodup_appendIfMissing {xs : List String} (x : String) (h : xs.Nodup) :
    (appendIfMissing xs x).Nodup := by
  unfold appendIfMissing
  split
  · exact h
  · next hx => simp [List.nodup_append, h, hx]

theorem appendIfMissing_eq_append_not_mem {xs : List String} {x : String}
    (h : x ∉ xs) : appendIfMissing xs x = xs ++ [x] := by
  simp [appendIfMissing, h]

theorem appendAllClean_grows (ds : List String) :
    ∀ ys, ∃ t, appendAllClean ys ds = ys ++ t := by
  induction ds with
  | nil => exact fun ys => ⟨[], by simp [appendAllClean]⟩
  | cons d ds ih =>
    intro ys
    obtain ⟨t1, h1⟩ := appendIfMissing_grows ys (pathClean d)
    obtain ⟨t2, h2⟩ := ih (appendIfMissing ys (pathClean d))
    refine ⟨t1 ++ t2, ?_⟩
    rw [appendAllClean, h2, h1, List.append_assoc]

theorem mem_appendAllClean_of_mem {y : String} (ds : List String) :
    ∀ ys, y ∈ ys → y ∈ appendAllClean ys ds := by
  induction ds with
  | nil => intro ys h; simpa [appendAllClean] using h
  | cons d ds ih =>
    intro ys h
    exact ih _ (mem_appendIfMissing_of_mem ys (pathClean d) h)

theorem mem_appendAllClean_self (ds : List String) :
    ∀ ys, ∀ d ∈ ds, pathClean d ∈ appendAllClean ys ds := by
  induction ds with
  | nil => intro ys d h; simp at h
  | cons c ds ih =>
    intro ys d h
    rcases List.mem_cons.mp h with h | h
    · subst h
      exact mem_appendAllClean_of_mem ds _ (mem_appendIfMissing_self ys (pathClean d))
    · exact ih _ d h

theorem appendAllClean_noop (ds : List String) :
    ∀ ys, (∀ d ∈ ds, pathClean d ∈ ys) → appendAllClean ys ds = ys := by
  induction ds with
  | nil => intro ys _; simp [appendAllClean]
  | cons d ds ih =>
    intro ys h
    have hd : pathClean d ∈ ys := h d (by simp)
    rw [appendAllClean, appendIfMissing_of_mem hd]
    exact ih ys (fun c hc => h c (by simp [hc]))

theorem nodup_appendAllClean (ds : List String) :
    ∀ ys, ys.Nodup → (appendAllClean ys ds).Nodup := by
  induction ds with
  | nil => intro ys h; simpa [appendAllClean] using h
  | cons d ds ih =>
    intro ys h
    exact ih _ (nodup_appendIfMissing (pathClean d) h)

theorem appendAllClean_new_subset (ds : List String) :
    ∀ ys t, appendAllClean ys ds = ys ++ t → ∀ x ∈ t, x ∈ ds.map pathClean := by
  induction ds with
  | nil =>
    intro ys t h x hx
    have ht : t = [] := by
      have hl := congrArg List.length h
      simp only [appendAllClean, List.length_append] at hl
      have h0 : t.length = 0 := by omega
      exact List.length_eq_zero.mp h0
    simp [ht] at hx
  | cons d ds ih =>
    intro ys t h x hx
    rw [appendAllClean] at h
    rcases appendIfMissing_cases ys (pathClean d) with h1 | h1
    · rw [h1] at h
      exact List.mem_cons_of_mem _ (ih ys t h x hx)
    · rw [h1] at h
      obtain ⟨t2, h2⟩ := appendAllClean_grows ds (ys ++ [pathClean d])
      rw [h2, List.append_assoc] at h
      have ht : t = [pathClean d] ++ t2 := (List.append_cancel_left h).symm
      subst ht
      rcases List.mem_append.mp hx with hx | hx
      · simp at hx
        simp [hx]
      · exact List.mem_cons_of_mem _ (ih _ t2 h2 x hx)

theorem addRpathLocs_grows (o : String) (rps : List String) :
    ∀ ls, ∃ t, addRpathLocs o rps ls = ls ++ t := by
  induction rps with
  | nil => exact fun ls => ⟨[], by simp [addRpathLocs]⟩
  | cons rp rps ih =>
    intro ls
    rw [addRpathLocs]
    split
    · exact ih ls
    · obtain ⟨t1, h1⟩ :=
        appendIfMissing_grows ls (pathClean (pathClean (replaceStr rp "$ORIGIN" o)))
      obtain ⟨t2, h2⟩ := ih (appendIfMissing ls (pathClean (pathClean (replaceStr rp "$ORIGIN" o))))
      exact ⟨t1 ++ t2, by rw [h2, h1, List.append_assoc]⟩

theorem nodup_addRpathLocs (o : String) (rps : List String) :
    ∀ ls, ls.Nodup → (addRpathLocs o rps ls).Nodup := by
  induction rps with
  | nil => intro ls h; simpa [addRpathLocs] using h
  | cons rp rps ih =>
    intro ls h
    rw [addRpathLocs]
    split
    · exact ih ls h
    · exact ih _ (nodup_appendIfMissing _ h)

/-! ## Lemmas about `firstHit` and `findLibrary` -/

theorem firstHit_eq_some {fs : FS} {n s : String} :
    ∀ {L : List String}, firstHit fs n L = some s →
      fsExists fs s = true ∧ ∃ d ∈ L, s = d ++ "/" ++ n := by
  intro L
  induction L with
  | nil => intro h; simp [firstHit] at h
  | cons d ds ih =>
    intro h
    rw [firstHit] at h
    split at h
    · next hex =>
      obtain rfl : d ++ "/" ++ n = s := by simpa using h
      exact ⟨hex, d, by simp⟩
    · obtain ⟨he, c, hc, rfl⟩ := ih h
      exact ⟨he, c, by simp [hc]⟩

theorem firstHit_append_left {fs : FS} {n : String} :
    ∀ (L1 : List String), (∃ d ∈ L1, fsExists fs (d ++ "/" ++ n) = true) →
      ∀ L2, ∃ d ∈ L1, firstHit fs n (L1 ++ L2) = some (d ++ "/" ++ n) := by
  intro L1
  induction L1 with
  | nil => intro h; simp at h
  | cons c ds ih =>
    intro h L2
    by_cases hc : fsExists fs (c ++ "/" ++ n) = true
    · exact ⟨c, by simp, by simp [firstHit, hc]⟩
    · have h2 : ∃ d ∈ ds, fsExists fs (d ++ "/" ++ n) = true := by
        rcases h with ⟨d, hd, hdx⟩
        rcases List.mem_cons.mp hd with rfl | hd
        · exact absurd hdx hc
        · exact ⟨d, hd, hdx⟩
      obtain ⟨d, hd, hfh⟩ := ih h2 L2
      exact ⟨d, by simp [hd], by simp [firstHit, hc, hfh]⟩

theorem findLibrary_allLibs (fs : FS) (env : String) (st : St) (n : String) :
    ((findLibrary fs env st n).1).allLibs = st.allLibs := rfl

theorem findLibrary_locs_grows (fs : FS) (env : String) (st : St) (n : String) :
    ∃ t, ((findLibrary fs env st n).1).libraryLocations = st.libraryLocations ++ t := by
  obtain ⟨t1, h1⟩ := appendAllClean_grows sysLocs st.libraryLocations
  obtain ⟨t2, h2⟩ := appendAllClean_grows (envDirs env) (appendAllClean st.libraryLocations sysLocs)
  refine ⟨t1 ++ t2, ?_⟩
  show appendAllClean (appendAllClean st.libraryLocations sysLocs) (envDirs env) = _
  rw [h2, h1, List.append_assoc]

theorem findLibrary_nodup_locs (fs : FS) (env : String) (st : St) (n : String)
    (h : st.libraryLocations.Nodup) :
    ((findLibrary fs env st n).1).libraryLocations.Nodup :=
  nodup_appendAllClean _ _ (nodup_appendAllClean _ _ h)

theorem findLibrary_stable {fs : FS} {env : String} {st : St} {n : String}
    (hsys : ∀ d ∈ sysLocs, pathClean d ∈ st.libraryLocations)
    (henv : ∀ d ∈ envDirs env, pathClean d ∈ st.libraryLocations) :
    findLibrary fs env st n = (st, firstHit fs n st.libraryLocations) := by
  show ({ st with libraryLocations :=
      appendAllClean (appendAllClean st.libraryLocations sysLocs) (envDirs env) },
    firstHit fs n
      (appendAllClean (appendAllClean st.libraryLocations sysLocs) (envDirs env))) = _
  rw [appendAllClean_noop sysLocs _ hsys, appendAllClean_noop (envDirs env) _ henv]

theorem findLibrary_idem (fs : FS) (env : String) (st : St) (n : String) :
    findLibrary fs env (findLibrary fs env st n).1 n = findLibrary fs env st n := by
  have hsys : ∀ d ∈ sysLocs,
      pathClean d ∈ ((findLibrary fs env st n).1).libraryLocations :=
    fun d hd => mem_appendAllClean_of_mem _ _ (mem_appendAllClean_self _ _ d hd)
  have henv : ∀ d ∈ envDirs env,
      pathClean d ∈ ((findLibrary fs env st n).1).libraryLocations :=
    fun d hd => mem_appendAllClean_self _ _ d hd
  rw [findLibrary_stable hsys henv]
  rfl

theorem findLibrary_found_mem_files {fs : FS} {env : String} {st : St} {n s : String}
    (h : (findLibrary fs env st n).2 = some s) : s ∈ fs.files := by
  have h2 := firstHit_eq_some h
  exact of_decide_eq_true h2.1

/-! ## Lemmas about `appendLib` -/

theorem appendLib_allLibs (fs : FS) (p : String) (st : St) :
    (appendLib fs p st).allLibs = appendIfMissing st.allLibs p := rfl

theorem appendLib_allLibs_grows (fs : FS) (p : String) (st : St) :
    ∃ t, (appendLib fs p st).allLibs = st.allLibs ++ t :=
  appendIfMissing_grows st.allLibs p

theorem appendLib_locs_grows (fs : FS) (p : String) (st : St) :
    ∃ t, (appendLib fs p st).libraryLocations = st.libraryLocations ++ t := by
  obtain ⟨t1, h1⟩ := addRpathLocs_grows (pathDir p) (fs.rpaths p) st.libraryLocations
  obtain ⟨t2, h2⟩ :=
    appendIfMissing_grows (addRpathLocs (pathDir p) (fs.rpaths p) st.libraryLocations)
      (pathClean (pathDir p))
  refine ⟨t1 ++ t2, ?_⟩
  show appendIfMissing (addRpathLocs (pathDir p) (fs.rpaths p) st.libraryLocations)
      (pathClean (pathDir p)) = _
  rw [h2, h1, List.append_assoc]

theorem appendLib_nodup_allLibs (fs : FS) (p : String) {st : St}
    (h : st.allLibs.Nodup) : (appendLib fs p st).allLibs.Nodup :=
  nodup_appendIfMissing p h

theorem appendLib_nodup_locs (fs : FS) (p : String) {st : St}
    (h : st.libraryLocations.Nodup) : (appendLib fs p st).libraryLocations.Nodup :=
  nodup_appendIfMissing _ (nodup_addRpathLocs _ _ _ h)

/-! ## Monotonicity: the global state only grows -/

/-- `st2` extends `st`: both `allLibs` and `libraryLocations` are the old
lists with (possibly empty) suffixes appended — no entry is ever removed
or reordered. -/
def StExt (st st2 : St) : Prop :=
  (∃ t, st2.allLibs = st.allLibs ++ t) ∧
  (∃ t, st2.libraryLocations = st.libraryLocations ++ t)

theorem stExt_refl (st : St) : StExt st st :=
  ⟨⟨[], by simp⟩, ⟨[], by simp⟩⟩

theorem stExt_trans {a b c : St} (h1 : StExt a b) (h2 : StExt b c) : StExt a c := by
  obtain ⟨⟨t1, ht1⟩, ⟨u1, hu1⟩⟩ := h1
  obtain ⟨⟨t2, ht2⟩, ⟨u2, hu2⟩⟩ := h2
  exact ⟨⟨t1 ++ t2, by rw [ht2, ht1, List.append_assoc]⟩,
    ⟨u1 ++ u2, by rw [hu2, hu1, List.append_assoc]⟩⟩

theorem findLibrary_ext (fs : FS) (env : String) (st : St) (n : String) :
    StExt st (findLibrary fs env st n).1 :=
  ⟨⟨[], by rw [findLibrary_allLibs]; simp⟩, findLibrary_locs_grows fs env st n⟩

theorem appendLib_ext (fs : FS) (p : String) (st : St) :
    StExt st (appendLib fs p st) :=
  ⟨appendLib_allLibs_grows fs p st, appendLib_locs_grows fs p st⟩

/-- The state a `DepResult` carries (`crash` carries none: the process
died). -/
def resSt : DepResult → Option St
  | .ok st => some st
  | .errRet st => some st
  | .crash => none

theorem getDepsLoop_ext {fs : FS} {env : String} {rec : St → String → Option DepResult}
    (hrec : ∀ st p r, rec st p = some r → ∀ st2, resSt r = some st2 → StExt st st2) :
    ∀ (ls : List String) (st : St) (r : DepResult),
      getDepsLoop fs env rec ls st = some r →
      ∀ st2, resSt r = some st2 → StExt st st2 := by
  intro ls
  induction ls with
  | nil =>
    intro st r h st2 h2
    rw [getDepsLoop] at h
    obtain rfl : (DepResult.ok st) = r := by simpa using h
    obtain rfl : st = st2 := by simpa [resSt] using h2
    exact stExt_refl st
  | cons l ls ih =>
    intro st r h st2 h2
    rw [getDepsLoop] at h
    split at h
    · obtain rfl : (DepResult.errRet (findLibrary fs env st l).1) = r := by simpa using h
      obtain rfl : (findLibrary fs env st l).1 = st2 := by simpa [resSt] using h2
      exact findLibrary_ext fs env st l
    · split at h
      · exact stExt_trans (findLibrary_ext fs env st l) (ih _ r h st2 h2)
      · split at h
        · exact absurd h (by simp)
        · next heq =>
          obtain rfl : (DepResult.crash) = r := by simpa using h
          simp [resSt] at h2
        · next st4 heq =>
          have hmid : StExt st (appendLib fs
              ((findLibrary fs env (findLibrary fs env st l).1 l).2.getD "")
              (findLibrary fs env (findLibrary fs env st l).1 l).1) :=
            stExt_trans (findLibrary_ext fs env st l)
              (stExt_trans (findLibrary_ext fs env (findLibrary fs env st l).1 l)
                (appendLib_ext fs _ _))
          have h4 : StExt _ st4 := hrec _ _ _ heq st4 (by simp [resSt])
          exact stExt_trans hmid (stExt_trans h4 (ih _ r h st2 h2))
        · next st4 heq =>
          have hmid : StExt st (appendLib fs
              ((findLibrary fs env (findLibrary fs env st l).1 l).2.getD "")
              (findLibrary fs env (findLibrary fs env st l).1 l).1) :=
            stExt_trans (findLibrary_ext fs env st l)
              (stExt_trans (findLibrary_ext fs env (findLibrary fs env st l).1 l)
                (appendLib_ext fs _ _))
          have h4 : StExt _ st4 := hrec _ _ _ heq st4 (by simp [resSt])
          exact stExt_trans hmid (stExt_trans h4 (ih _ r h st2 h2))

theorem getDeps_ext (fs : FS) (env : String) :
    ∀ (fuel : Nat) (st : St) (p : String) (r : DepResult),
      getDeps fs env fuel st p = some r →
      ∀ st2, resSt r = some st2 → StExt st st2 := by
  intro fuel
  induction fuel with
  | zero => intro st p r h; rw [getDeps] at h; exact absurd h (by simp)
  | succ f ih =>
    intro st p r h st2 h2
    rw [getDeps] at h
    split at h
    · obtain rfl : (DepResult.errRet st) = r := by simpa using h
      obtain rfl : st = st2 := by simpa [resSt] using h2
      exact stExt_refl st
    · split at h
      · obtain rfl : (DepResult.crash) = r := by simpa using h
        simp [resSt] at h2
      · exact getDepsLoop_ext ih _ st r h st2 h2

/-! ## The deduplication invariant -/

/-- Both global lists are duplicate-free. -/
def stNodup (st : St) : Prop := st.allLibs.Nodup ∧ st.libraryLocations.Nodup

theorem findLibrary_stNodup (fs : FS) (env : String) {st : St} (n : String)
    (h : stNodup st) : stNodup (findLibrary fs env st n).1 :=
  ⟨by rw [findLibrary_allLibs]; exact h.1, findLibrary_nodup_locs fs env st n h.2⟩

theorem appendLib_stNodup (fs : FS) (p : String) {st : St} (h : stNodup st) :
    stNodup (appendLib fs p st) :=
  ⟨appendLib_nodup_allLibs fs p h.1, appendLib_nodup_locs fs p h.2⟩

theorem getDepsLoop_nodup {fs : FS} {env : String} {rec : St → String → Option DepResult}
    (hrec : ∀ st p r, stNodup st → rec st p = some r →
      ∀ st2, resSt r = some st2 → stNodup st2) :
    ∀ (ls : List String) (st : St) (r : DepResult), stNodup st →
      getDepsLoop fs env rec ls st = some r →
      ∀ st2, resSt r = some st2 → stNodup st2 := by
  intro ls
  induction ls with
  | nil =>
    intro st r hst h st2 h2
    rw [getDepsLoop] at h
    obtain rfl : (DepResult.ok st) = r := by simpa using h
    obtain rfl : st = st2 := by simpa [resSt] using h2
    exact hst
  | cons l ls ih =>
    intro st r hst h st2 h2
    rw [getDepsLoop] at h
    split at h
    · obtain rfl : (DepResult.errRet (findLibrary fs env st l).1) = r := by simpa using h
      obtain rfl : (findLibrary fs env st l).1 = st2 := by simpa [resSt] using h2
      exact findLibrary_stNodup fs env l hst
    · split at h
      · exact ih _ r (findLibrary_stNodup fs env l hst) h st2 h2
      · split at h
        · exact absurd h (by simp)
        · next heq =>
          obtain rfl : (DepResult.crash) = r := by simpa using h
          simp [resSt] at h2
        · next st4 heq =>
          have hmid : stNodup (appendLib fs
              ((findLibrary fs env (findLibrary fs env st l).1 l).2.getD "")
              (findLibrary fs env (findLibrary fs env st l).1 l).1) :=
            appendLib_stNodup fs _
              (findLibrary_stNodup fs env l (findLibrary_stNodup fs env l hst))
          have h4 := hrec _ _ _ hmid heq st4 (by simp [resSt])
          exact ih _ r h4 h st2 h2
        · next st4 heq =>
          have hmid : stNodup (appendLib fs
              ((findLibrary fs env (findLibrary fs env st l).1 l).2.getD "")
              (findLibrary fs env (findLibrary fs env st l).1 l).1) :=
            appendLib_stNodup fs _
              (findLibrary_stNodup fs env l (findLibrary_stNodup fs env l hst))
          have h4 := hrec _ _ _ hmid heq st4 (by simp [resSt])
          exact ih _ r h4 h st2 h2

theorem getDeps_nodup (fs : FS) (env : String) :
    ∀ (fuel : Nat) (st : St) (p : String) (r : DepResult), stNodup st →
      getDeps fs env fuel st p = some r →
      ∀ st2, resSt r = some st2 → stNodup st2 := by
  intro fuel
  induction fuel with
  | zero => intro st p r _ h; rw [getDeps] at h; exact absurd h (by simp)
  | succ f ih =>
    intro st p r hst h st2 h2
    rw [getDeps] at h
    split at h
    · obtain rfl : (DepResult.errRet st) = r := by simpa using h
      obtain rfl : st = st2 := by simpa [resSt] using h2
      exact hst
    · split at h
      · obtain rfl : (DepResult.crash) = r := by simpa using h
        simp [resSt] at h2
      · exact getDepsLoop_nodup ih _ st r hst h st2 h2

/-! ## Termination: enough fuel is never exhausted

The measure is the number of existing host files not yet in `allLibs`;
every recursive `getDeps` call is preceded by an `appendLib` of a path
that exists and was not yet in `allLibs`, so the measure strictly
decreases. -/

/-- How many existing files are not yet registered in `allLibs`. -/
def missingCount (fs : FS) (st : St) : Nat :=
  (fs.files.toFinset \ st.allLibs.toFinset).card

theorem missingCount_le (fs : FS) (st : St) :
    missingCount fs st ≤ fs.files.dedup.length := by
  rw [← List.card_toFinset]
  exact Finset.card_le_card (Finset.sdiff_subset)

theorem missingCount_mono {fs : FS} {st st2 : St}
    (h : ∃ t, st2.allLibs = st.allLibs ++ t) :
    missingCount fs st2 ≤ missingCount fs st := by
  obtain ⟨t, ht⟩ := h
  apply Finset.card_le_card
  apply Finset.sdiff_subset_sdiff (le_refl _)
  intro x hx
  rw [List.mem_toFinset] at hx ⊢
  rw [ht]
  exact List.mem_append_left t hx

theorem missingCount_lt {fs : FS} {st st2 : St} {p : String}
    (hall : st2.allLibs = st.allLibs ++ [p]) (hp : p ∈ fs.files)
    (hnp : p ∉ st.allLibs) : missingCount fs st2 < missingCount fs st := by
  apply Finset.card_lt_card
  rw [Finset.ssubset_iff_of_subset]
  · refine ⟨p, ?_, ?_⟩
    · rw [Finset.mem_sdiff, List.mem_toFinset, List.mem_toFinset]
      exact ⟨hp, hnp⟩
    · rw [Finset.mem_sdiff, List.mem_toFinset, List.mem_toFinset]
      intro hc
      exact hc.2 (by rw [hall]; simp)
  · apply Finset.sdiff_subset_sdiff (le_refl _)
    intro x hx
    rw [List.mem_toFinset] at hx ⊢
    rw [hall]
    exact List.mem_append_left _ hx

theorem getDepsLoop_total {fs : FS} {env : String} {rec : St → String → Option DepResult}
    (N : Nat)
    (hrecTotal : ∀ st p, missingCount fs st < N → rec st p ≠ none)
    (hrecExt : ∀ st p r, rec st p = some r → ∀ st2, resSt r = some st2 → StExt st st2) :
    ∀ (ls : List String) (st : St), missingCount fs st ≤ N →
      getDepsLoop fs env rec ls st ≠ none := by
  intro ls
  induction ls with
  | nil => intro st _; rw [getDepsLoop]; simp
  | cons l ls ih =>
    intro st hN
    rw [getDepsLoop]
    split
    · simp
    · next s heq =>
      split
      · exact ih _ (by rw [missingCount] at hN ⊢; rw [findLibrary_allLibs]; exact hN)
      · next hnotmem =>
        rw [findLibrary_idem] at *
        have hsfiles : s ∈ fs.files := findLibrary_found_mem_files heq
        rw [heq]
        have hgetD : (some s).getD "" = s := rfl
        rw [hgetD]
        have hall1 : ((findLibrary fs env st l).1).allLibs = st.allLibs :=
          findLibrary_allLibs fs env st l
        have hnotmem2 : s ∉ ((findLibrary fs env st l).1).allLibs := hnotmem
        have happ : (appendLib fs s (findLibrary fs env st l).1).allLibs =
            ((findLibrary fs env st l).1).allLibs ++ [s] := by
          rw [appendLib_allLibs]
          exact appendIfMissing_eq_append_not_mem hnotmem2
        have hlt : missingCount fs (appendLib fs s (findLibrary fs env st l).1) <
            missingCount fs st := by
          have h1 : missingCount fs (appendLib fs s (findLibrary fs env st l).1) <
              missingCount fs (findLibrary fs env st l).1 :=
            missingCount_lt happ hsfiles hnotmem2
          have h2 : missingCount fs (findLibrary fs env st l).1 = missingCount fs st := by
            rw [missingCount, missingCount, hall1]
          omega
        have hrecn : rec (appendLib fs s (findLibrary fs env st l).1) s ≠ none :=
          hrecTotal _ _ (by omega)
        split
        · next hnone => exact absurd hnone hrecn
        · simp
        · next st4 heq4 =>
          apply ih
          have hext : StExt (appendLib fs s (findLibrary fs env st l).1) st4 :=
            hrecExt _ _ _ heq4 st4 (by simp [resSt])
          have := @missingCount_mono fs _ _ hext.1
          omega
        · next st4 heq4 =>
          apply ih
          have hext : StExt (appendLib fs s (findLibrary fs env st l).1) st4 :=
            hrecExt _ _ _ heq4 st4 (by simp [resSt])
          have := @missingCount_mono fs _ _ hext.1
          omega

theorem getDeps_total (fs : FS) (env : String) :
    ∀ (fuel : Nat) (st : St) (p : String), missingCount fs st < fuel →
      getDeps fs env fuel st p ≠ none := by
  intro fuel
  induction fuel with
  | zero => intro st p h; omega
  | succ f ih =>
    intro st p h
    rw [getDeps]
    split
    · simp
    · split
      · simp
      · exact getDepsLoop_total f ih (getDeps_ext fs env f) (fs.deps p) st (by omega)

/-! ## Lemmas about the whole run -/

theorem runGetDeps_total (fs : FS) (env : String) (fuel : Nat) :
    ∀ (rs : List String) (st : St), missingCount fs st < fuel →
      runGetDeps fs env fuel rs st ≠ none := by
  intro rs
  induction rs with
  | nil => intro st _; rw [runGetDeps]; simp
  | cons r rs ih =>
    intro st h
    rw [runGetDeps]
    split
    · next hnone => exact absurd hnone (getDeps_total fs env fuel st r h)
    · simp
    · next st2 heq =>
      apply ih
      have hext : StExt st st2 := getDeps_ext fs env fuel st r _ heq st2 (by simp [resSt])
      have := @missingCount_mono fs _ _ hext.1
      omega
    · next st2 heq =>
      apply ih
      have hext : StExt st st2 := getDeps_ext fs env fuel st r _ heq st2 (by simp [resSt])
      have := @missingCount_mono fs _ _ hext.1
      omega

theorem runGetDeps_ext (fs : FS) (env : String) (fuel : Nat) :
    ∀ (rs : List String) (st st2 : St),
      runGetDeps fs env fuel rs st = some (.ok st2) → StExt st st2 := by
  intro rs
  induction rs with
  | nil =>
    intro st st2 h
    rw [runGetDeps] at h
    obtain rfl : st = st2 := by simpa using h
    exact stExt_refl st
  | cons r rs ih =>
    intro st st2 h
    rw [runGetDeps] at h
    split at h
    · exact absurd h (by simp)
    · exact absurd h (by simp)
    · next st3 heq =>
      exact stExt_trans (getDeps_ext fs env fuel st r _ heq st3 (by simp [resSt])) (ih _ _ h)
    · next st3 heq =>
      exact stExt_trans (getDeps_ext fs env fuel st r _ heq st3 (by simp [resSt])) (ih _ _ h)

theorem runGetDeps_nodup (fs : FS) (env : String) (fuel : Nat) :
    ∀ (rs : List String) (st st2 : St), stNodup st →
      runGetDeps fs env fuel rs st = some (.ok st2) → stNodup st2 := by
  intro rs
  induction rs with
  | nil =>
    intro st st2 hst h
    rw [runGetDeps] at h
    obtain rfl : st = st2 := by simpa using h
    exact hst
  | cons r rs ih =>
    intro st st2 hst h
    rw [runGetDeps] at h
    split at h
    · exact absurd h (by simp)
    · exact absurd h (by simp)
    · next st3 heq =>
      exact ih _ _ (getDeps_nodup fs env fuel st r _ hst heq st3 (by simp [resSt])) h
    · next st3 heq =>
      exact ih _ _ (getDeps_nodup fs env fuel st r _ hst heq st3 (by simp [resSt])) h

theorem foldAppendLib_ext (fs : FS) :
    ∀ (roots : List String) (st : St),
      StExt st (roots.foldl (fun s r => appendLib fs r s) st) := by
  intro roots
  induction roots with
  | nil => intro st; exact stExt_refl st
  | cons r rs ih =>
    intro st
    rw [List.foldl_cons]
    exact stExt_trans (appendLib_ext fs r st) (ih _)

theorem foldAppendLib_nodup (fs : FS) :
    ∀ (roots : List String) (st : St), stNodup st →
      stNodup (roots.foldl (fun s r => appendLib fs r s) st) := by
  intro roots
  induction roots with
  | nil => intro st h; exact h
  | cons r rs ih =>
    intro st h
    rw [List.foldl_cons]
    exact ih _ (appendLib_stNodup fs r h)

/-! ## Path equivalence: a doubled separator does not change a cleaned path

The copy destination is `appdir.Path + "/" + lib` while the rpath is
computed against `filepath.Dir(appdir.Path + lib)` and the patch target is
`appdir.Path + lib`; for an absolute `lib` these name the same file — the
lemmas below make that precise. -/

theorem splitCharAux_append (sep : Char) (xs ys : List Char) :
    ∀ acc, splitCharAux sep (xs ++ sep :: ys) acc =
      splitCharAux sep xs acc ++ splitCharAux sep ys [] := by
  induction xs with
  | nil => intro acc; simp [splitCharAux]
  | cons c cs ih =>
    intro acc
    by_cases hc : c = sep
    · subst hc; simp [splitCharAux, ih]
    · simp [splitCharAux, hc, ih]

theorem segsOf_nil : segsOf [] = [] := rfl

theorem segsOf_append_slash (xs ys : List Char) :
    segsOf (xs ++ '/' :: ys) = segsOf xs ++ segsOf ys := by
  unfold segsOf
  rw [splitCharAux_append]
  simp [List.filter_append]

theorem segsOf_cons_slash (m : List Char) : segsOf ('/' :: m) = segsOf m := by
  have h := segsOf_append_slash [] m
  simpa [segsOf_nil] using h

theorem cleanChars_congr {l1 l2 : List Char} (habs : isAbsChars l1 = isAbsChars l2)
    (hseg : segsOf l1 = segsOf l2) : cleanChars l1 = cleanChars l2 := by
  unfold cleanChars
  rw [habs, hseg]

theorem isAbsChars_append_slash_cons (a m1 m2 : List Char) :
    isAbsChars (a ++ '/' :: m1) = isAbsChars (a ++ '/' :: m2) := by
  cases a <;> simp [isAbsChars]

theorem cleanChars_doubleSlash (a rest : List Char) :
    cleanChars (a ++ '/' :: '/' :: rest) = cleanChars (a ++ '/' :: rest) := by
  apply cleanChars_congr
  · exact isAbsChars_append_slash_cons a _ _
  · rw [segsOf_append_slash a ('/' :: rest), segsOf_append_slash a rest, segsOf_cons_slash]

theorem pathClean_doubleSlash (a lib : String) (h : ∃ r, lib = "/" ++ r) :
    pathClean (a ++ "/" ++ lib) = pathClean (a ++ lib) := by
  obtain ⟨r, rfl⟩ := h
  have h1 : (a ++ "/" ++ ("/" ++ r)).toList = a.toList ++ '/' :: '/' :: r.toList := by
    show (a.toList ++ ['/']) ++ ('/' :: r.toList) = a.toList ++ '/' :: '/' :: r.toList
    rw [List.append_assoc, List.singleton_append]
  have h2 : (a ++ ("/" ++ r)).toList = a.toList ++ '/' :: r.toList := rfl
  unfold pathClean
  rw [h1, h2]
  exact cleanChars_doubleSlash a.toList r.toList

theorem dropWhile_nonslash_append {w : List Char} (m : List Char)
    (h : ∀ c ∈ w, (c != '/') = true) :
    (w ++ m).dropWhile (fun c => c != '/') = m.dropWhile (fun c => c != '/') := by
  induction w with
  | nil => rfl
  | cons c cs ih =>
    have hc : (c != '/') = true := h c (by simp)
    simp only [List.cons_append, List.dropWhile_cons, hc, if_true]
    exact ih (fun d hd => h d (by simp [hd]))

theorem dropWhile_slash (m : List Char) :
    ('/' :: m).dropWhile (fun c => c != '/') = '/' :: m := by
  simp [List.dropWhile_cons]

theorem slash_decomp (l : List Char) :
    (∀ c ∈ l, (c != '/') = true) ∨
    ∃ w z, l = w ++ '/' :: z ∧ ∀ c ∈ w, (c != '/') = true := by
  induction l with
  | nil => left; intro c hc; simp at hc
  | cons c cs ih =>
    by_cases hc : c = '/'
    · subst hc
      right
      exact ⟨[], cs, rfl, by intro d hd; simp at hd⟩
    · rcases ih with h | ⟨w, z, hz, hw⟩
      · left
        intro d hd
        rcases List.mem_cons.mp hd with rfl | hd
        · simpa using hc
        · exact h d hd
      · right
        refine ⟨c :: w, z, by rw [hz]; rfl, ?_⟩
        intro d hd
        rcases List.mem_cons.mp hd with rfl | hd
        · simpa using hc
        · exact hw d hd

theorem preSlash_append_slash_nonslash (x y : List Char)
    (hy : ∀ c ∈ y, (c != '/') = true) :
    preSlash (x ++ '/' :: y) = x ++ ['/'] := by
  unfold preSlash
  have hds : ∀ m : List Char, (y.reverse ++ m).dropWhile (fun c => c != '/') =
      m.dropWhile (fun c => c != '/') :=
    fun m => dropWhile_nonslash_append m (fun c hc => hy c (List.mem_reverse.mp hc))
  simp [List.reverse_append, List.append_assoc, hds, dropWhile_slash]

theorem preSlash_append_slash_hasslash (x y w z : List Char)
    (hrev : y.reverse = w ++ '/' :: z) (hw : ∀ c ∈ w, (c != '/') = true) :
    preSlash (x ++ '/' :: y) = x ++ '/' :: preSlash y := by
  unfold preSlash
  have hds : ∀ m : List Char, (w ++ m).dropWhile (fun c => c != '/') =
      m.dropWhile (fun c => c != '/') :=
    fun m => dropWhile_nonslash_append m hw
  simp [List.reverse_append, hrev, List.append_assoc, hds, dropWhile_slash]

theorem dirChars_doubleSlash (a rest : List Char) :
    dirChars (a ++ '/' :: '/' :: rest) = dirChars (a ++ '/' :: rest) := by
  have e1 : a ++ '/' :: '/' :: rest = (a ++ ['/']) ++ '/' :: rest := by
    rw [List.append_assoc]; rfl
  rcases slash_decomp rest.reverse with h | ⟨w, z, hz, hw⟩
  · have hy : ∀ c ∈ rest, (c != '/') = true :=
      fun c hc => h c (List.mem_reverse.mpr hc)
    rw [dirChars, dirChars, e1,
      preSlash_append_slash_nonslash _ _ hy, preSlash_append_slash_nonslash _ _ hy]
    have hne1 : ((a ++ ['/']) ++ ['/'] : List Char) ≠ [] := by simp
    have hne2 : (a ++ ['/'] : List Char) ≠ [] := by simp
    rw [if_neg hne1, if_neg hne2]
    have e2 : (a ++ ['/']) ++ ['/'] = a ++ '/' :: '/' :: ([] : List Char) := by
      rw [List.append_assoc]; rfl
    have e3 : a ++ ['/'] = a ++ '/' :: ([] : List Char) := rfl
    rw [e2, e3]
    exact cleanChars_doubleSlash a []
  · rw [dirChars, dirChars, e1,
      preSlash_append_slash_hasslash _ _ w z hz hw,
      preSlash_append_slash_hasslash _ _ w z hz hw]
    have hne1 : ((a ++ ['/']) ++ '/' :: preSlash rest : List Char) ≠ [] := by simp
    have hne2 : (a ++ '/' :: preSlash rest : List Char) ≠ [] := by simp
    rw [if_neg hne1, if_neg hne2]
    have e2 : (a ++ ['/']) ++ '/' :: preSlash rest =
        a ++ '/' :: '/' :: preSlash rest := by
      rw [List.append_assoc]; rfl
    rw [e2]
    exact cleanChars_doubleSlash a (preSlash rest)

theorem pathDir_doubleSlash (a lib : String) (h : ∃ r, lib = "/" ++ r) :
    pathDir (a ++ "/" ++ lib) = pathDir (a ++ lib) := by
  obtain ⟨r, rfl⟩ := h
  have h1 : (a ++ "/" ++ ("/" ++ r)).toList = a.toList ++ '/' :: '/' :: r.toList := by
    show (a.toList ++ ['/']) ++ ('/' :: r.toList) = a.toList ++ '/' :: '/' :: r.toList
    rw [List.append_assoc, List.singleton_append]
  have h2 : (a ++ ("/" ++ r)).toList = a.toList ++ '/' :: r.toList := rfl
  unfold pathDir
  rw [h1, h2]
  exact dirChars_doubleSlash a.toList r.toList

/-! ## Lemmas about the materialization loop -/

theorem append_left_ne_self {root s : String} (h : 0 < root.length) :
    root ++ s ≠ s := by
  intro he
  have hl := congrArg String.length he
  rw [String.length_append] at hl
  omega

theorem materializeLibs_fields (fs : FS) (root : String) (llocs : List String) :
    ∀ (libs : List String), ∀ s ∈ materializeLibs fs root llocs libs,
      s.src ∈ libs ∧ s.dst = root ++ "/" ++ s.src ∧ s.patchTarget = root ++ s.src ∧
      s.newRpath = newRpathStringForElf root llocs s.src := by
  intro libs
  induction libs with
  | nil => intro s hs; rw [materializeLibs] at hs; simp at hs
  | cons l ls ih =>
    intro s hs
    rw [materializeLibs] at hs
    split at hs
    · rcases List.mem_cons.mp hs with rfl | hs
      · exact ⟨by simp, rfl, rfl, rfl⟩
      · obtain ⟨h1, h2, h3, h4⟩ := ih s hs
        exact ⟨by simp [h1], h2, h3, h4⟩
    · obtain ⟨h1, h2, h3, h4⟩ := ih s hs
      exact ⟨by simp [h1], h2, h3, h4⟩

/-! ## Auxiliary facts for `PatchFile` -/

theorem ne_patched (p : String) : p ≠ p ++ ".patched" := by
  intro h
  have hl := congrArg String.length h
  rw [String.length_append] at hl
  have h8 : ".patched".length = 8 := rfl
  omega

/-! ## The claims -/

/-- C1: for every dependency graph — cyclic ones included — the closure
computation (`getDeps` driven by `determineLibsInDirTree`) terminates as
soon as the fuel exceeds the number of distinct host files (so the real,
unfuelled recursion terminates), and the resulting `allLibs` is
duplicate-free and an extension of the initial one: each resolved library
path appears exactly once, because membership in `allLibs` is checked
before appending and recursing and `allLibs` only grows. -/
theorem determineLibs_terminates_nodup (fs : FS) (env : String)
    (roots : List String) (st : St) (fuel : Nat)
    (hnd : stNodup st) (hf : fs.files.dedup.length < fuel) :
    determineLibsInDirTree fs env fuel roots st ≠ none ∧
    (∀ st2, determineLibsInDirTree fs env fuel roots st = some (.ok st2) →
      st2.allLibs.Nodup ∧ ∃ t, st2.allLibs = st.allLibs ++ t) := by
  rw [determineLibsInDirTree]
  constructor
  · apply runGetDeps_total
    calc missingCount fs _ ≤ fs.files.dedup.length := missingCount_le fs _
    _ < fuel := hf
  · intro st2 h
    refine ⟨(runGetDeps_nodup fs env fuel roots _ st2
      (foldAppendLib_nodup fs roots st hnd) h).1, ?_⟩
    exact (stExt_trans (foldAppendLib_ext fs roots st)
      (runGetDeps_ext fs env fuel roots _ st2 h)).1

/-- Witness for C1: on the synthetic A↔B cycle the run returns (fuel 3
suffices for 2 files) and both libraries appear exactly once. -/
theorem determineLibs_terminates_nodup_witness :
    determineLibsInDirTree fsAB "" 3 ["/lib64/libA.so"] ⟨[], []⟩ ≠ none ∧
    (["/lib64/libA.so", "/lib64/libB.so"] : List String).Nodup :=
  ⟨(determineLibs_terminates_nodup fsAB "" ["/lib64/libA.so"] ⟨[], []⟩ 3
      ⟨by decide, by decide⟩ (by decide)).1,
   ((determineLibs_terminates_nodup fsAB "" ["/lib64/libA.so"] ⟨[], []⟩ 3
      ⟨by decide, by decide⟩ (by decide)).2
      ⟨["/lib64/libA.so", "/lib64/libB.so"], locsAB⟩ rfl).1⟩

/-- C2 counterexample: with no hint directories and `libx.so` present both
in the `LD_LIBRARY_PATH` directory `/envdir` and in the default system
directory `/usr/lib64`, the spec's stated order (hints, then environment
list, then system defaults) resolves to the environment copy, but
`findLibrary` returns the system copy: the source appends the hardcoded
system locations *before* the `LD_LIBRARY_PATH` entries. -/
theorem findLibrary_env_order_counterexample :
    specResolve fsPrec "/envdir" [] "libx.so" = some "/envdir/libx.so" ∧
    (findLibrary fsPrec "/envdir" ⟨[], []⟩ "libx.so").2 = some "/usr/lib64/libx.so" ∧
    ("/envdir/libx.so" : String) ≠ "/usr/lib64/libx.so" :=
  ⟨rfl, rfl, by decide⟩

/-- C2 (amended): `findLibrary` consults the live `libraryLocations` list
front to back with first match winning; already-registered directories
(the hints of binaries already inspected) keep their positions at the
front, and the new entries appended by the call are first the fixed system
locations and then the `LD_LIBRARY_PATH` entries (system *before*
environment).  In particular, when a same-named library exists both in an
already-registered hint directory and in any directory appended later,
resolution returns the copy in the hint directory. -/
theorem findLibrary_resolution_order (fs : FS) (env : String) (st : St)
    (filename : String) :
    (findLibrary fs env st filename).2 =
      firstHit fs filename ((findLibrary fs env st filename).1).libraryLocations ∧
    (∃ t1 t2, ((findLibrary fs env st filename).1).libraryLocations =
        st.libraryLocations ++ t1 ++ t2 ∧
        (∀ x ∈ t1, x ∈ sysLocs.map pathClean) ∧
        (∀ x ∈ t2, x ∈ (envDirs env).map pathClean)) ∧
    ((∃ d ∈ st.libraryLocations, fsExists fs (d ++ "/" ++ filename) = true) →
      ∃ d ∈ st.libraryLocations,
        (findLibrary fs env st filename).2 = some (d ++ "/" ++ filename)) := by
  obtain ⟨t1, h1⟩ := appendAllClean_grows sysLocs st.libraryLocations
  obtain ⟨t2, h2⟩ := appendAllClean_grows (envDirs env)
    (appendAllClean st.libraryLocations sysLocs)
  have hlocs : ((findLibrary fs env st filename).1).libraryLocations =
      st.libraryLocations ++ t1 ++ t2 := by
    show appendAllClean (appendAllClean st.libraryLocations sysLocs) (envDirs env) = _
    rw [h2, h1]
  refine ⟨rfl, ⟨t1, t2, hlocs, appendAllClean_new_subset sysLocs _ t1 h1, ?_⟩, ?_⟩
  · intro x hx
    exact appendAllClean_new_subset (envDirs env) _ t2 h2 x hx
  · intro hex
    obtain ⟨d, hd, hfh⟩ := firstHit_append_left st.libraryLocations hex (t1 ++ t2)
    refine ⟨d, hd, ?_⟩
    show firstHit fs filename
      (appendAllClean (appendAllClean st.libraryLocations sysLocs) (envDirs env)) = _
    rw [show appendAllClean (appendAllClean st.libraryLocations sysLocs) (envDirs env) =
      st.libraryLocations ++ (t1 ++ t2) from by rw [← List.append_assoc]; exact hlocs]
    exact hfh

/-- Witness for C2 (amended): with `/hint` registered and `libx.so`
present both in `/hint` and in `/usr/lib64`, resolution returns the copy
in the hint directory. -/
theorem findLibrary_resolution_order_witness :
    ∃ d ∈ (["/hint"] : List String),
      (findLibrary fsHint "" ⟨[], ["/hint"]⟩ "libx.so").2 = some (d ++ "/" ++ "libx.so") :=
  (findLibrary_resolution_order fsHint "" ⟨[], ["/hint"]⟩ "libx.so").2.2
    ⟨"/hint", by decide, by decide⟩

/-- C3 counterexample: a `NotFoundError` does not abort the remaining
closure work and is not reliably surfaced.  First conjunct: resolving
`libmiss.so` fails in the state the run is in when it processes `/r/x`.
Second conjunct: the run nevertheless completes normally and the later
file `/r/y` is still processed (its dependency `/lib64/liby.so` is in the
final `allLibs`), because `determineLibsInDirTree` only logs the error
`getDeps` returns.  Third conjunct: when the unresolvable name sits one
recursion level down (`/r/app` needs `libB.so`, which needs
`libmiss.so`), `getDeps` even returns without any error — the recursive
call's error is only logged. -/
theorem notFound_not_fatal_counterexample :
    (findLibrary fsSwallow "" ⟨["/r/x", "/r/y"], ["/r"]⟩ "libmiss.so").2 = none ∧
    determineLibsInDirTree fsSwallow "" 4 ["/r/x", "/r/y"] ⟨[], []⟩ =
      some (.ok ⟨["/r/x", "/r/y", "/lib64/liby.so"], locsR⟩) ∧
    getDeps fsDeep "" 3 ⟨["/r/app"], ["/r"]⟩ "/r/app" =
      some (.ok ⟨["/r/app", "/lib64/libB.so"], locsR⟩) :=
  ⟨rfl, rfl, rfl⟩

/-- C3 (amended): a `NotFoundError` for a *direct* dependency of the
binary being inspected is returned by `getDeps`, aborting that call's
remaining dependency processing; but callers only log it:
`determineLibsInDirTree` continues with the remaining files and a
recursive `getDeps` call's error is swallowed, so the failure is not
fatal to the closure-building run (see the counterexample). -/
theorem getDeps_notfound_direct (fs : FS) (env : String) (fuel : Nat)
    (st : St) (p l : String) (ls : List String)
    (hex : fsExists fs p = true) (helf : fs.isELF p = true)
    (hdeps : fs.deps p = l :: ls)
    (hmiss : (findLibrary fs env st l).2 = none) :
    getDeps fs env (fuel + 1) st p = some (.errRet (findLibrary fs env st l).1) := by
  rw [getDeps, hex, helf]
  simp only [Bool.true_eq_false, if_false]
  rw [hdeps, getDepsLoop, hmiss]

/-- Witness for C3 (amended): `/r/x` declares `libmiss.so`, which cannot
be resolved, so `getDeps` returns the error state. -/
theorem getDeps_notfound_direct_witness :
    getDeps fsSwallow "" 4 ⟨["/r/x", "/r/y"], ["/r"]⟩ "/r/x" =
      some (.errRet (findLibrary fsSwallow "" ⟨["/r/x", "/r/y"], ["/r"]⟩ "libmiss.so").1) :=
  getDeps_notfound_direct fsSwallow "" 3 ⟨["/r/x", "/r/y"], ["/r"]⟩ "/r/x"
    "libmiss.so" [] (by decide) (by decide) rfl rfl

/-- C4: the source only *logs* "Not writing rpath ... because it already
starts with $" but then calls `patchelf --set-rpath` unconditionally: for
a host library whose pre-existing rpath is `["$ORIGIN/../lib"]`, the
materialization step records `hadDollarRpath = true` and still carries
the rpath patch of the installed copy. -/
theorem rpath_overwritten_despite_dollar :
    materializeLibs fsDollar "/ap" ["/ap/usr/lib"] ["/usr/lib/libq.so"] =
      [{ src := "/usr/lib/libq.so"
         dst := "/ap//usr/lib/libq.so"
         hadDollarRpath := true
         patchTarget := "/ap/usr/lib/libq.so"
         newRpath := "$ORIGIN/." }] :=
  rfl

/-- C7: a candidate file that exists but cannot be parsed as ELF crashes
the whole run instead of being skipped: `getDeps` logs the `elf.Open`
error and then calls `ImportedLibraries` on the `nil` handle — a
nil-pointer dereference that panics — so the run on `/a/pp` (valid) and
`/a/fake.so` (invalid) ends in a crash. -/
theorem parse_failure_crashes_run :
    determineLibsInDirTree fsBadElf "" 3 ["/a/pp", "/a/fake.so"] ⟨[], []⟩ =
      some .crash :=
  rfl

/-- C8: `PatchFile` is atomic with respect to the original file: whenever
it returns an error (stat, read, or write failure — everything before the
final rename), the file at the (trimmed) original path is unchanged; and
on the success path the fully substituted content is written to the
sibling `path + ".patched"` with the original permission bits before any
rename happens. -/
theorem PatchFile_atomic (fs : FSt) (readOk writeOk renameOk : Bool)
    (junk path search repl : String) :
    ((PatchFile fs readOk writeOk renameOk junk path search repl).2 ≠ .okRet →
      (PatchFile fs readOk writeOk renameOk junk path search repl).1 (trimSpace path) =
        fs (trimSpace path)) ∧
    (∀ fd, fs (trimSpace path) = some fd → readOk = true → writeOk = true →
      (PatchFile fs readOk writeOk false junk path search repl).1
          (trimSpace path ++ ".patched") =
        some ⟨replaceStr fd.content search repl, fd.perm⟩) := by
  constructor
  · intro hne
    cases hfs : fs (trimSpace path) with
    | none => simp [PatchFile, hfs]
    | some fd =>
      cases readOk with
      | false => simp [PatchFile, hfs]
      | true =>
        cases writeOk with
        | false =>
          simp [PatchFile, hfs, writeF, ne_patched (trimSpace path)]
        | true =>
          exact absurd (by simp [PatchFile, hfs]) hne
  · intro fd hfs hro hwo
    subst hro
    subst hwo
    simp [PatchFile, hfs, writeF]

/-- Witness for C8: a simulated write failure leaves `/f` unchanged. -/
theorem PatchFile_atomic_witness :
    (PatchFile fsPatch true false true "JU" "/f" "/usr" "/xxx").1 (trimSpace "/f") =
      fsPatch (trimSpace "/f") :=
  (PatchFile_atomic fsPatch true false true "JU" "/f" "/usr" "/xxx").1 (by decide)

/-- C9: the search-directory list is append-only and deduplicated
throughout a run: registering a directory already present is the
identity; `findLibrary` and `appendLib` only append to
`libraryLocations` (never remove or reorder), they preserve freedom from
duplicates, and so does a whole `determineLibsInDirTree` run. -/
theorem libraryLocations_append_only (fs : FS) (env : String) (fuel : Nat)
    (roots : List String) (st : St) (n d : String) :
    (d ∈ st.libraryLocations →
      appendIfMissing st.libraryLocations d = st.libraryLocations) ∧
    (∃ t, ((findLibrary fs env st n).1).libraryLocations = st.libraryLocations ++ t) ∧
    (∃ t, (appendLib fs n st).libraryLocations = st.libraryLocations ++ t) ∧
    (st.libraryLocations.Nodup →
      ((findLibrary fs env st n).1).libraryLocations.Nodup ∧
      (appendLib fs n st).libraryLocations.Nodup) ∧
    (∀ st2, determineLibsInDirTree fs env fuel roots st = some (.ok st2) →
      (∃ t, st2.libraryLocations = st.libraryLocations ++ t) ∧
      (stNodup st → st2.libraryLocations.Nodup)) := by
  refine ⟨fun h => appendIfMissing_of_mem h,
    findLibrary_locs_grows fs env st n,
    appendLib_locs_grows fs n st,
    fun h => ⟨findLibrary_nodup_locs fs env st n h, appendLib_nodup_locs fs n h⟩,
    ?_⟩
  intro st2 h
  rw [determineLibsInDirTree] at h
  constructor
  · exact (stExt_trans (foldAppendLib_ext fs roots st)
      (runGetDeps_ext fs env fuel roots _ st2 h)).2
  · intro hst
    exact (runGetDeps_nodup fs env fuel roots _ st2
      (foldAppendLib_nodup fs roots st hst) h).2

/-- Witness for C9: registering the already-present `/hint` is the
identity, and a concrete run only appends to the initial list. -/
theorem libraryLocations_append_only_witness :
    appendIfMissing ["/hint"] "/hint" = ["/hint"] ∧
    (∃ t, ((findLibrary fsHint "" ⟨[], ["/hint"]⟩ "libx.so").1).libraryLocations =
      ["/hint"] ++ t) :=
  ⟨(libraryLocations_append_only fsHint "" 1 [] ⟨[], ["/hint"]⟩ "libx.so" "/hint").1
      (by decide),
   (libraryLocations_append_only fsHint "" 1 [] ⟨[], ["/hint"]⟩ "libx.so" "/hint").2.1⟩

/-- C10: when stat, read, and the temporary-file write all succeed,
`PatchFile` returns `nil` whether or not the final rename succeeds — the
result of `os.Rename` is discarded (line 786), so a rename failure is
never reported to the caller. -/
theorem PatchFile_ignores_rename_failure (fs : FSt) (renameOk : Bool)
    (junk path search repl : String) (fd : FileData)
    (hstat : fs (trimSpace path) = some fd) :
    (PatchFile fs true true renameOk junk path search repl).2 = .okRet := by
  simp [PatchFile, hstat]

/-- Witness for C10: the rename of `/f.patched` over `/f` fails, yet the
call reports success. -/
theorem PatchFile_ignores_rename_failure_witness :
    (PatchFile fsPatch true true false "" "/f" "/usr" "/xxx").2 = .okRet :=
  PatchFile_ignores_rename_failure fsPatch false "" "/f" "/usr" "/xxx"
    ⟨"abc/usr", 493⟩ (by decide)

/-- C5: for every newly copied binary with an absolute host path, the
installed rpath string of the source (each search directory mapped into
the bundle by prefixing the AppDir path unless already under it, made
relative to the binary's own bundled directory, written as
`$ORIGIN/<relative-path>`, and all entries joined with `:`) equals the
RpathSpec the spec describes, where the binary's bundled location is
`bundleRoot + "/" + originalAbsolutePath`. -/
theorem newRpath_matches_spec (appdirPath : String) (locs : List String)
    (lib : String) (habs : ∃ r, lib = "/" ++ r) :
    newRpathStringForElf appdirPath (libraryLocationsInAppDir appdirPath locs) lib =
      rpathSpecOfSpec appdirPath locs lib := by
  unfold newRpathStringForElf rpathSpecOfSpec libraryLocationsInAppDir
  rw [List.map_map]
  congr 1
  apply List.map_congr_left
  intro d _
  simp only [Function.comp_apply]
  rw [pathDir_doubleSlash appdirPath lib habs]

/-- Witness for C5: a binary in `/usr/lib` bundled under `/ap`, with one
search directory outside and one inside the bundle. -/
theorem newRpath_matches_spec_witness :
    newRpathStringForElf "/ap"
        (libraryLocationsInAppDir "/ap" ["/usr/lib", "/ap/usr/opt"]) "/usr/lib/libq.so" =
      rpathSpecOfSpec "/ap" ["/usr/lib", "/ap/usr/opt"] "/usr/lib/libq.so" :=
  newRpath_matches_spec "/ap" ["/usr/lib", "/ap/usr/opt"] "/usr/lib/libq.so"
    ⟨"usr/lib/libq.so", rfl⟩

/-- C6 counterexample: a resolved library that is *not* under the bundle
root is nevertheless not copied when its mirrored destination already
exists inside the AppDir (the loop condition at line 398 also requires
`helpers.Exists(appdir.Path+"/"+lib) == false`), so materialization does
not copy "exactly those resolved library paths not already located under
the bundle root". -/
theorem materialize_skips_existing_dest :
    materializeLibs fsDest "/ap" [] ["/usr/lib/libz.so"] = [] ∧
    strHasPrefix "/usr/lib/libz.so" "/ap" = false ∧
    fsExists fsDest ("/ap" ++ "/" ++ "/usr/lib/libz.so") = true :=
  ⟨rfl, rfl, rfl⟩

/-- C6 (amended): materialization copies exactly those resolved library
paths that are neither already under the bundle root *nor already present
at their mirrored destination*, each to `bundleRoot + "/" +
originalAbsolutePath`; the rpath patch is applied to `bundleRoot +
originalAbsolutePath` — the same file as the installed copy for absolute
host paths (the two strings clean to the same path) — and never to the
host original. -/
theorem materialize_copies_and_patches (fs : FS) (root : String)
    (llocs : List String) (libs : List String) (hroot : 0 < root.length) :
    (materializeLibs fs root llocs libs).map (fun s => (s.src, s.dst)) =
      (libs.filter (fun l => decide (strHasPrefix l root = false ∧
        fsExists fs (root ++ "/" ++ l) = false))).map (fun l => (l, root ++ "/" ++ l)) ∧
    (∀ s ∈ materializeLibs fs root llocs libs,
      s.patchTarget = root ++ s.src ∧ s.patchTarget ≠ s.src ∧
      s.newRpath = newRpathStringForElf root llocs s.src) ∧
    ((∀ l ∈ libs, ∃ r, l = "/" ++ r) →
      ∀ s ∈ materializeLibs fs root llocs libs,
        pathClean s.dst = pathClean s.patchTarget) := by
  refine ⟨?_, ?_, ?_⟩
  · induction libs with
    | nil => rfl
    | cons l ls ih =>
      rw [materializeLibs, List.filter_cons]
      by_cases hc : strHasPrefix l root = false ∧ fsExists fs (root ++ "/" ++ l) = false
      · rw [if_pos hc, if_pos (by simpa using hc)]
        simp only [List.map_cons, ih]
      · rw [if_neg hc, if_neg (by simpa using hc)]
        exact ih
  · intro s hs
    obtain ⟨_, _, h3, h4⟩ := materializeLibs_fields fs root llocs libs s hs
    exact ⟨h3, by rw [h3]; exact append_left_ne_self hroot, h4⟩
  · intro habs s hs
    obtain ⟨h1, h2, h3, _⟩ := materializeLibs_fields fs root llocs libs s hs
    rw [h2, h3]
    exact pathClean_doubleSlash root s.src (habs s.src h1)

/-- Witness for C6 (amended): one absolute host library, not under the
bundle root and absent from it, is copied to the mirrored destination. -/
theorem materialize_copies_and_patches_witness :
    (materializeLibs fsDollar "/ap" ["/ap/usr/lib"] ["/usr/lib/libq.so"]).map
        (fun s => (s.src, s.dst)) =
      [("/usr/lib/libq.so", "/ap//usr/lib/libq.so")] :=
  ((materialize_copies_and_patches fsDollar "/ap" ["/ap/usr/lib"]
      ["/usr/lib/libq.so"] (by decide)).1).trans (by decide)

end AppDirTool
